import Mathlib

/-!
Shallow embedding of the hybrid retrieval core of the `rotom-dex` repository:

* `src/analysis/vector_index.py` — tokenizer `_tokenise`, tf-idf index
  `SimpleVectorIndex` (`from_documents`, `search`);
* `src/chatbot/retrieval.py` — tokenizer `_tokenize`, `KnowledgeBaseRetriever`
  (`_load_documents`, `semantic_search`, `_format_filters`, `facet_counts`,
  `hybrid_search`, `_bm25_rank`, `_metadata_matches`, `_result_from_id`).

Modelling conventions, used throughout:

* Python floats are modelled exactly: rationals `ℚ` for the retriever
  (its arithmetic is field arithmetic), reals `ℝ` for the tf-idf index
  (whose idf weights use `math.log` and whose norms use `math.sqrt`).
* Python dicts are modelled as insertion-ordered association lists
  (`List (key × value)`); `dict[k] = v` is `dictInsert` (update in place if
  the key exists, else append), matching CPython insertion-order semantics.
* Sparse weight dicts (`Dict[int, float]`) are modelled as total functions on
  vocabulary indices that return `0` off their support, with sums taken over
  `Finset.range` of the vocabulary size; a dict iteration of a sum equals the
  range sum because absent indices contribute `0`.
* The chromadb collection and the `rank_bm25` scorer are external
  collaborators; they enter the model as oracle functions carried by the
  `Retriever` structure.
* Python `list.sort(key=..., reverse=True)` / `sorted(..., reverse=True)` are
  stable descending sorts; `sortScoresDesc` is a stable insertion sort by the
  second component, descending.
* The iteration order of a Python `set` (used by `hybrid_search` for the
  candidate-id union) is unspecified; it is passed in as an explicit
  enumeration argument `enum`, with validity captured by `isEnumOf`.
-/

namespace RotomDex

/-- JSON scalar metadata values (string / number / boolean / null), as stored
in a document's metadata mapping. -/
inductive Value : Type
  | vStr (s : String)
  | vInt (n : Int)
  | vBool (b : Bool)
  | vNull
deriving DecidableEq, Repr

/-- Python `str(value)` on a metadata scalar. -/
def pyStr : Value → String
  | .vStr s => s
  | .vInt n => toString n
  | .vBool true => "True"
  | .vBool false => "False"
  | .vNull => "None"

/-- Python `str.lower()` restricted to ASCII (the inputs the repository
handles); per-character lowering. -/
def lowerStr (s : String) : String := String.mk (s.data.map Char.toLower)

/-- Python substring test `needle in haystack` on strings. -/
def containsSub (haystack needle : String) : Bool :=
  (List.range (haystack.data.length + 1)).any fun i =>
    List.isPrefixOf needle.data (haystack.data.drop i)

/-- Association-list lookup: Python `dict.get(k)` (first binding wins; the
maps built by `dictInsert` have unique keys). -/
def alookup {α : Type} (k : String) : List (String × α) → Option α
  | [] => none
  | p :: l => if p.1 = k then some p.2 else alookup k l

/-- Python `dict[k] = v`: update the binding in place if `k` is present,
otherwise append it (insertion-order semantics). -/
def dictInsert {α : Type} : List (String × α) → String → α → List (String × α)
  | [], k, v => [(k, v)]
  | p :: m, k, v => if p.1 = k then (k, v) :: m else p :: dictInsert m k v

/-- Build a Python dict from a list of key/value pairs by repeated
assignment (first-insertion key order, last-assignment value). -/
def dictOfPairs {α : Type} (ps : List (String × α)) : List (String × α) :=
  ps.foldl (fun m p => dictInsert m p.1 p.2) []

/-- Stable insertion (descending by second component) for the model of
Python's stable `sort(key=score, reverse=True)`.  `le` is the Boolean order
on scores. -/
def insertDesc {α β : Type} (le : β → β → Bool) (a : α × β) :
    List (α × β) → List (α × β)
  | [] => [a]
  | b :: l => if le b.2 a.2 then a :: b :: l else b :: insertDesc le a l

/-- Stable descending sort by second component (Python
`sorted(..., key=lambda item: item[1], reverse=True)`). -/
def sortScoresDesc {α β : Type} (le : β → β → Bool) :
    List (α × β) → List (α × β)
  | [] => []
  | a :: l => insertDesc le a (sortScoresDesc le l)

/-- The Boolean order on `ℚ` used by the retriever's sorts. -/
def qle (x y : ℚ) : Bool := decide (x ≤ y)

/-- The Boolean order on `ℝ` used by the tf-idf index's sort. -/
noncomputable def rle (x y : ℝ) : Bool := decide (x ≤ y)

/-! ## Tokenizers

`vector_index.py` line 13: `TOKEN_PATTERN = re.compile(r"[a-z0-9]+", re.IGNORECASE)`
and `_tokenise(text) = [token.lower() for token in TOKEN_PATTERN.findall(text)]`.

`retrieval.py` line 33: `_tokenize(text) = re.findall(r"\w+", text.lower())`.

`re.findall` with a single character class returns the maximal runs of
matching characters, in order.  The model is over the ASCII fragment the
repository's data uses: the class `[a-z0-9]` with `IGNORECASE` matches the
ASCII letters (both cases) and digits, and the class `\w` matches ASCII
alphanumerics and the underscore (plus further Unicode word characters not
modelled here; the underscore already separates the two tokenizers). -/

/-- Worker for `charRuns`: `cur` is the (reversed) run currently being
scanned. -/
def charRunsAux (p : Char → Bool) (cur : List Char) : List Char → List (List Char)
  | [] => if cur = [] then [] else [cur.reverse]
  | c :: cs =>
    if p c then charRunsAux p (c :: cur) cs
    else if cur = [] then charRunsAux p [] cs
    else cur.reverse :: charRunsAux p [] cs

/-- Maximal runs of characters satisfying `p` (the semantics of
`re.findall` of a one-class pattern). -/
def charRuns (p : Char → Bool) (l : List Char) : List (List Char) :=
  charRunsAux p [] l

/-- Character class of `TOKEN_PATTERN` (`[a-z0-9]` with `re.IGNORECASE`),
over ASCII. -/
def isIdxChar (c : Char) : Bool := c.isAlpha || c.isDigit

/-- Character class of `\w`, over ASCII. -/
def isWordChar (c : Char) : Bool := c.isAlphanum || c = '_'

/-- `_tokenise` of `src/analysis/vector_index.py`: find the case-insensitive
alphanumeric runs, then lowercase each token. -/
def tokenise (s : String) : List String :=
  (charRuns isIdxChar s.data).map fun r => String.mk (r.map Char.toLower)

/-- `_tokenize` of `src/chatbot/retrieval.py`: lowercase the text, then find
the `\w` runs. -/
def tokenize (s : String) : List String :=
  (charRuns isWordChar (s.data.map Char.toLower)).map String.mk

/-! ## `KnowledgeBaseRetriever` (src/chatbot/retrieval.py) -/

/-- `RetrievalResult` (retrieval.py lines 23-30). -/
structure RetrievalResult : Type where
  id : String
  text : String
  score : ℚ
  metadata : List (String × Value)
deriving DecidableEq, Repr

/-- One entry of `_documents_map`: `{"text": ..., "metadata": ...}`. -/
structure DocEntry : Type where
  text : String
  metadata : List (String × Value)
deriving DecidableEq, Repr

/-- A caller-supplied filter value: a scalar, or a list/tuple/set of
scalars. -/
inductive FilterVal : Type
  | single (v : Value)
  | multi (vs : List Value)
deriving DecidableEq, Repr

/-- A value of the chroma `where` clause produced by `_format_filters`:
either a scalar equality or a `$in` set-membership predicate. -/
inductive WhereVal : Type
  | eq (v : Value)
  | isin (vs : List Value)
deriving DecidableEq, Repr

/-- The positionally aligned arrays of a chroma `collection.query` reply. -/
structure QueryReply : Type where
  ids : List String
  documents : List String
  metadatas : List (List (String × Value))
  distances : List ℚ

/-- The retriever state after `__init__`: the in-memory documents map, the
optional BM25 collaborator (`None` exactly when lexical ranking is
disabled), its aligned id list, and the two external vector-store
capabilities (`collection.query` and `collection.get`), taken as oracles. -/
structure Retriever : Type where
  documentsMap : List (String × DocEntry)
  bm25 : Option (List String → List ℚ)
  bm25Ids : List String
  oracle : String → Nat → List (String × WhereVal) → QueryReply
  collectionGet : String → String × List (String × Value)

/-- `_distance_to_score` (retrieval.py lines 107-109). -/
def distance_to_score (d : ℚ) : ℚ := 1 / (1 + d)

/-- `_format_filters` (retrieval.py lines 111-120): `None`/empty becomes the
empty clause; list-valued filters become `$in` predicates. -/
def format_filters : Option (List (String × FilterVal)) → List (String × WhereVal)
  | none => []
  | some fs =>
    if fs = [] then []
    else fs.map fun p =>
      (p.1, match p.2 with
            | .single v => WhereVal.eq v
            | .multi vs => WhereVal.isin vs)

/-- `metadata.get(key)` with JSON `null` identified with Python `None`
(both fail the `value is None` checks in the source). -/
def getNonNull (md : List (String × Value)) (k : String) : Option Value :=
  match alookup k md with
  | some Value.vNull => none
  | x => x

/-- `_metadata_matches` (retrieval.py lines 176-192): every filter key must
be present with a non-null value whose lowercased string form contains the
lowercased string form of the expected value (any element, for list-valued
expectations); no filters means everything matches. -/
def metadata_matches (md : List (String × Value))
    (filters : Option (List (String × FilterVal))) : Bool :=
  match filters with
  | none => true
  | some fs =>
    if fs = [] then true
    else fs.all fun p =>
      match getNonNull md p.1 with
      | none => false
      | some v =>
        let vstr := lowerStr (pyStr v)
        match p.2 with
        | .single e => containsSub vstr (lowerStr (pyStr e))
        | .multi es => es.any fun e => containsSub vstr (lowerStr (pyStr e))

/-- `semantic_search` (retrieval.py lines 77-105): query the vector-store
collaborator, zip the four aligned arrays (`zip` truncates to the shortest),
convert distances to scores, and — when `include_scores` is false — rebuild
each result field by field before returning. -/
def semantic_search (oracle : String → Nat → List (String × WhereVal) → QueryReply)
    (query : String) (limit : Nat) (filters : Option (List (String × FilterVal)))
    (include_scores : Bool) : List RetrievalResult :=
  let raw := oracle query limit (format_filters filters)
  let results := ((raw.ids.zip raw.documents).zip (raw.metadatas.zip raw.distances)).map
    fun p => { id := p.1.1, text := p.1.2,
               score := distance_to_score p.2.2, metadata := p.2.1 }
  if include_scores then results
  else results.map fun r =>
    { id := r.id, text := r.text, score := r.score, metadata := r.metadata }

/-- One Python dict-counter increment `counts[k] = counts.get(k, 0) + 1`. -/
def bumpCount : List (String × Nat) → String → List (String × Nat)
  | [], k => [(k, 1)]
  | p :: m, k => if p.1 = k then (p.1, p.2 + 1) :: m else p :: bumpCount m k

/-- `facet_counts` (retrieval.py lines 122-137): scan the documents map,
keep the documents passing the filter predicate, skip documents whose value
for `field` is missing or null, and bucket by the (stringified) value. -/
def facet_counts (R : Retriever) (field : String)
    (filters : Option (List (String × FilterVal))) : List (String × Nat) :=
  R.documentsMap.foldl
    (fun counts p =>
      if metadata_matches p.2.metadata filters then
        match getNonNull p.2.metadata field with
        | none => counts
        | some v => bumpCount counts (pyStr v)
      else counts)
    []

/-- `_bm25_rank` (retrieval.py lines 156-170 callee, lines 172-185 in file):
score the whole corpus with the BM25 collaborator on the tokenized query,
then keep only the documents passing the metadata filter. -/
def bm25_rank (R : Retriever) (query : String)
    (filters : Option (List (String × FilterVal))) : List (String × ℚ) :=
  match R.bm25 with
  | none => []
  | some bm =>
    let scores := bm (tokenize query)
    (R.bm25Ids.zip scores).foldl
      (fun res p =>
        let md := ((alookup p.1 R.documentsMap).map DocEntry.metadata).getD []
        if metadata_matches md filters then dictInsert res p.1 p.2 else res)
      []

/-- `_result_from_id` (retrieval.py lines 194-203): prefer the local
documents map; fall back to the vector store's get-by-id capability. -/
def result_from_id (R : Retriever) (docId : String) (score : ℚ) : RetrievalResult :=
  match alookup docId R.documentsMap with
  | some entry => { id := docId, text := entry.text, score := score,
                    metadata := entry.metadata }
  | none => { id := docId, text := (R.collectionGet docId).1, score := score,
              metadata := (R.collectionGet docId).2 }

/-- `max(vals or [1.0])`: the maximum of a branch's scores, `1` for an empty
branch. -/
def branchMax (vals : List ℚ) : ℚ :=
  match vals with
  | [] => 1
  | v :: vs => vs.foldl max v

/-- `m or 1.0` on a float: replace a zero divisor by `1`. -/
def normDiv (m : ℚ) : ℚ := if m = 0 then 1 else m

/-- One branch's normalized score for `docId`:
`scores.get(doc_id, 0.0) / (branch_max or 1.0)`. -/
def normScore (m : List (String × ℚ)) (docId : String) : ℚ :=
  ((alookup docId m).getD 0) / normDiv (branchMax (m.map Prod.snd))

/-- The candidate-id pool of `hybrid_search`'s fusion step:
`set(scores) | set(bm25_scores)` before iteration (keys of the semantic
score dict followed by keys of the BM25 score dict; the set contains
exactly these ids). -/
def hybridCandidateIds (R : Retriever) (query : String) (limit : Nat)
    (filters : Option (List (String × FilterVal))) : List String :=
  (dictOfPairs ((semantic_search R.oracle query (limit * 2) filters true).map
      fun r => (r.id, r.score))).map Prod.fst
    ++ (bm25_rank R query filters).map Prod.fst

/-- `enum` is a valid iteration order of the candidate-id set: duplicate
free and containing exactly the candidate ids. -/
def isEnumOf (enum cands : List String) : Bool :=
  enum.Nodup && enum.all (fun i => cands.contains i)
    && cands.all (fun i => enum.contains i)

/-- `hybrid_search` (retrieval.py lines 139-170).  `enum` is the iteration
order of the Python set `all_ids = set(scores) | set(bm25_scores)`, which
CPython leaves unspecified; theorems about the lexical-enabled branch take
`isEnumOf` as a hypothesis.  The lexical-disabled branch never reaches the
set and ignores `enum`. -/
def hybrid_search (R : Retriever) (query : String) (limit : Nat)
    (filters : Option (List (String × FilterVal))) (alpha : ℚ)
    (enum : List String) : List RetrievalResult :=
  let semanticResults := semantic_search R.oracle query (limit * 2) filters true
  let scores := dictOfPairs (semanticResults.map fun r => (r.id, r.score))
  match R.bm25 with
  | none =>
    ((sortScoresDesc qle scores).take limit).map fun p => result_from_id R p.1 p.2
  | some _ =>
    let bm25Scores := bm25_rank R query filters
    if enum = [] then []
    else
      let combined := enum.map fun docId =>
        (docId, alpha * normScore scores docId + (1 - alpha) * normScore bm25Scores docId)
      ((sortScoresDesc qle combined).take limit).map fun p => result_from_id R p.1 p.2

/-- A line of the persisted JSON-Lines snapshot, as `_load_documents` sees
it: blank (`not line.strip()`), a JSON object parsed by `json.loads` (with
its optional `id`, `text` and `metadata` fields), or text on which
`json.loads` raises. -/
inductive JsonLine : Type
  | blank
  | obj (idField : Option String) (textField : Option String)
      (metadataField : Option (List (String × Value)))
  | bad
deriving DecidableEq, Repr

/-- Outcome of `_load_documents`: the documents map on success, or the map
accumulated so far when an exception (JSON decode error or missing-`id`
`KeyError`) propagates out of the method. -/
inductive LoadOutcome : Type
  | ok (m : List (String × DocEntry))
  | raised (m : List (String × DocEntry))
deriving DecidableEq, Repr

/-- `_load_documents` (retrieval.py lines 65-75): skip blank lines, parse
each remaining line, read `payload["id"]`, and assign
`documents_map[id] = {"text": payload.get("text", ""), "metadata": payload.get("metadata", {})}`.
A parse failure or missing `id` raises, aborting the loop. -/
def load_documents (m : List (String × DocEntry)) :
    List JsonLine → LoadOutcome
  | [] => .ok m
  | .blank :: ls => load_documents m ls
  | .bad :: _ => .raised m
  | .obj none _ _ :: _ => .raised m
  | .obj (some i) t md :: ls =>
    load_documents (dictInsert m i ⟨t.getD "", md.getD []⟩) ls

/-- The documents map built from exactly the well-formed lines of a file
(the reference map of the spec's skip-and-continue policy). -/
def goodLinesMap (lines : List JsonLine) : List (String × DocEntry) :=
  lines.foldl
    (fun m l =>
      match l with
      | .obj (some i) t md => dictInsert m i ⟨t.getD "", md.getD []⟩
      | _ => m)
    []

/-! ## `SimpleVectorIndex` (src/analysis/vector_index.py)

The corpus passed to `from_documents` is an ordered `Dict[str, str]`,
modelled as `List (String × String)`.  Sparse vectors (`Dict[int, float]`)
are modelled as total functions of the vocabulary index that are `0` off
their support; every sum the code takes over dict entries equals the
corresponding sum over `Finset.range` of the vocabulary size.  Division by
zero in `ℝ` yields `0`, which coincides with the code's explicit
empty-token special case (`doc_vectors.append({}); doc_norms.append(0.0)`). -/

/-- Token lists of all documents, in corpus order
(`tokens_per_doc`, applied in `doc_ids` order). -/
def corpusTokens (documents : List (String × String)) : List (List String) :=
  documents.map fun p => tokenise p.2

/-- Append the unseen tokens of one document to the vocabulary, in order
(`if token not in vocab: vocab[token] = len(vocab)`). -/
def addTokens (vocab : List String) (tokens : List String) : List String :=
  tokens.foldl (fun v t => if t ∈ v then v else v ++ [t]) vocab

/-- The vocabulary in first-seen order; a token's index is its position in
this list. -/
def vocabList (documents : List (String × String)) : List String :=
  (corpusTokens documents).foldl addTokens []

/-- Document frequency of a token: the number of documents containing it at
least once (`document_frequencies.update(set(tokens))`). -/
def dfCount (documents : List (String × String)) (t : String) : Nat :=
  ((corpusTokens documents).filter fun tk => t ∈ tk).length

/-- The smoothed idf weight `math.log((1 + num_docs) / (1 + df)) + 1.0`. -/
noncomputable def idfVal (numDocs df : Nat) : ℝ :=
  Real.log ((1 + numDocs) / (1 + df)) + 1

/-- The idf table, indexed by vocabulary index. -/
noncomputable def idfOf (documents : List (String × String)) (idx : Nat) : ℝ :=
  idfVal documents.length (dfCount documents ((vocabList documents).getD idx ""))

/-- The tf-idf weight vector of a token list (used for document vectors and,
verbatim, for the query vector): entry `idx` is
`(count of the idx-th vocabulary token / total token count) * idf(idx)`,
which is `0` for vocabulary tokens that do not occur (absent dict keys). -/
noncomputable def tfidfVec (documents : List (String × String))
    (tokens : List String) (idx : Nat) : ℝ :=
  ((tokens.count ((vocabList documents).getD idx "") : ℝ) / tokens.length)
    * idfOf documents idx

/-- The squared norm accumulated by `norm += value * value`. -/
noncomputable def normSq (documents : List (String × String))
    (tokens : List String) : ℝ :=
  ∑ idx ∈ Finset.range (vocabList documents).length,
    (tfidfVec documents tokens idx) ^ 2

/-- `math.sqrt(norm)`: the stored norm of a token list's vector. -/
noncomputable def vecNorm (documents : List (String × String))
    (tokens : List String) : ℝ :=
  Real.sqrt (normSq documents tokens)

/-- The dot product `sum(weight * vector.get(idx, 0.0))` of the query
vector and one document vector. -/
noncomputable def dotProd (documents : List (String × String))
    (qTokens dTokens : List String) : ℝ :=
  ∑ idx ∈ Finset.range (vocabList documents).length,
    tfidfVec documents qTokens idx * tfidfVec documents dTokens idx

namespace SimpleVectorIndex

/-- The unsorted `(doc_id, score)` list built by `search` (vector_index.py
lines 96-126) when the query has tokens and a non-zero query norm: each
zero-norm document is pinned to score `0.0`, every other document scores
`dot / (norm * query_norm)`. -/
noncomputable def scoresList (documents : List (String × String))
    (query : String) : List (String × ℝ) :=
  let tokens := tokenise query
  if tokens = [] then []
  else if vecNorm documents tokens = 0 then []
  else
    documents.map fun p =>
      let dTokens := tokenise p.2
      if vecNorm documents dTokens = 0 then (p.1, 0)
      else (p.1, dotProd documents tokens dTokens
                  / (vecNorm documents dTokens * vecNorm documents tokens))

/-- `SimpleVectorIndex.search`: sort the scores descending (Python's stable
`list.sort(key=lambda item: item[1], reverse=True)`) and truncate to
`top_k`. -/
noncomputable def search (documents : List (String × String)) (query : String)
    (topK : Nat) : List (String × ℝ) :=
  (sortScoresDesc rle (scoresList documents query)).take topK

end SimpleVectorIndex

/-! ## Definitions supporting the claims -/

/-- Total count in a facet-count table. -/
def sumCounts (m : List (String × Nat)) : Nat := (m.map Prod.snd).sum

/-- A non-empty token all of whose characters are lowercase ASCII letters or
digits (the token shape asserted by the spec's tokenizer contract). -/
def lowerAlnumTok (t : String) : Bool :=
  !t.data.isEmpty && t.data.all fun c => c.isLower || c.isDigit

/-- A non-empty token of non-uppercase `\w` characters (what `_tokenize`
actually produces). -/
def wordTok (t : String) : Bool :=
  !t.data.isEmpty && t.data.all fun c => isWordChar c && !c.isUpper

/-- A snapshot line that `_load_documents` handles without raising: blank,
or a JSON object carrying an `id`. -/
def wellFormedLine : JsonLine → Bool
  | .blank => true
  | .obj (some _) _ _ => true
  | _ => false

/-- Modelled from the spec (hybrid algorithm step 3, for the
refinement/equivalence claim): with lexical ranking disabled, the result is
the semantic branch's `(id, score)` candidates sorted by score descending
and truncated to `limit`. -/
def semanticOnlyRanking (oracle : String → Nat → List (String × WhereVal) → QueryReply)
    (query : String) (limit : Nat)
    (filters : Option (List (String × FilterVal))) : List (String × ℚ) :=
  (sortScoresDesc qle
    ((semantic_search oracle query (limit * 2) filters true).map
      fun r => (r.id, r.score))).take limit

/-- A vector-store oracle that returns one candidate (`d1` at distance `0`)
for every query. -/
def oneDocOracle : String → Nat → List (String × WhereVal) → QueryReply :=
  fun _ _ _ => ⟨["d1"], ["some text"], [[]], [0]⟩

/-- A lexical-disabled retriever with an empty local map in front of
`oneDocOracle`. -/
def cexR : Retriever :=
  { documentsMap := [], bm25 := none, bm25Ids := [],
    oracle := oneDocOracle, collectionGet := fun _ => ("t", []) }

/-- A lexical-disabled retriever whose vector store returns no candidates. -/
def cexREmpty : Retriever :=
  { documentsMap := [], bm25 := none, bm25Ids := [],
    oracle := fun _ _ _ => ⟨[], [], [], []⟩, collectionGet := fun _ => ("", []) }

/-- A lexical-disabled retriever over two documents whose vector store
returns both, `a` before `b`, with distinct distances. -/
def twoDocR : Retriever :=
  { documentsMap := [("a", ⟨"doc a", []⟩), ("b", ⟨"doc b", []⟩)],
    bm25 := none, bm25Ids := [],
    oracle := fun _ _ _ => ⟨["a", "b"], ["doc a", "doc b"], [[], []], [1, 0]⟩,
    collectionGet := fun _ => ("", []) }

/-- A lexical-enabled retriever engineered so that the two fused scores tie:
the vector store returns only `d1` (distance `0`), BM25 scores `[0, 1]` for
`[d1, d2]`. -/
def tieR : Retriever :=
  { documentsMap := [("d1", ⟨"alpha doc", []⟩), ("d2", ⟨"beta doc", []⟩)],
    bm25 := some (fun _ => [0, 1]), bm25Ids := ["d1", "d2"],
    oracle := fun _ _ _ => ⟨["d1"], ["alpha doc"], [[]], [0]⟩,
    collectionGet := fun _ => ("", []) }

/-! ## Helper lemmas -/

theorem mem_insertDesc {α β : Type} (le : β → β → Bool) (a x : α × β)
    (l : List (α × β)) : x ∈ insertDesc le a l ↔ x = a ∨ x ∈ l := by
  induction l with
  | nil => simp [insertDesc]
  | cons b t ih =>
    by_cases h : le b.2 a.2
    · simp [insertDesc, h]
    · simp only [insertDesc, h, if_neg, Bool.false_eq_true, if_false,
        List.mem_cons, ih]
      tauto

theorem mem_sortScoresDesc {α β : Type} (le : β → β → Bool) (x : α × β)
    (l : List (α × β)) : x ∈ sortScoresDesc le l ↔ x ∈ l := by
  induction l with
  | nil => simp [sortScoresDesc]
  | cons b t ih => simp [sortScoresDesc, mem_insertDesc, ih]

theorem length_insertDesc {α β : Type} (le : β → β → Bool) (a : α × β)
    (l : List (α × β)) : (insertDesc le a l).length = l.length + 1 := by
  induction l with
  | nil => simp [insertDesc]
  | cons b t ih =>
    by_cases h : le b.2 a.2 <;> simp [insertDesc, h, ih]

theorem length_sortScoresDesc {α β : Type} (le : β → β → Bool)
    (l : List (α × β)) : (sortScoresDesc le l).length = l.length := by
  induction l with
  | nil => rfl
  | cons b t ih => simp [sortScoresDesc, length_insertDesc, ih]

theorem filter_insertDesc {α β : Type} [DecidableEq β] (le : β → β → Bool)
    (href : ∀ x : β, le x x = true) (c : β) (a : α × β) (l : List (α × β)) :
    (insertDesc le a l).filter (fun p => decide (p.2 = c)) =
      if a.2 = c then a :: l.filter (fun p => decide (p.2 = c))
      else l.filter (fun p => decide (p.2 = c)) := by
  induction l with
  | nil =>
    by_cases h : a.2 = c <;> simp [insertDesc, List.filter, h]
  | cons b t ih =>
    simp only [insertDesc]
    by_cases h : le b.2 a.2 = true
    · rw [if_pos h]
      by_cases hb : b.2 = c <;> by_cases ha : a.2 = c <;>
        simp [List.filter_cons, hb, ha]
    · rw [if_neg h]
      have hbc : a.2 = c → ¬ b.2 = c := by
        intro ha hb
        exact h (by rw [hb, ha]; exact href c)
      by_cases ha : a.2 = c
      · have hb := hbc ha
        simp [List.filter_cons, hb, ha, ih]
      · by_cases hb : b.2 = c <;> simp [List.filter_cons, hb, ha, ih]

theorem filter_sortScoresDesc {α β : Type} [DecidableEq β] (le : β → β → Bool)
    (href : ∀ x : β, le x x = true) (c : β) (l : List (α × β)) :
    (sortScoresDesc le l).filter (fun p => decide (p.2 = c)) =
      l.filter (fun p => decide (p.2 = c)) := by
  induction l with
  | nil => rfl
  | cons b t ih =>
    by_cases hb : b.2 = c <;>
      simp [sortScoresDesc, filter_insertDesc le href, hb, List.filter, ih]

theorem qle_refl (x : ℚ) : qle x x = true := by simp [qle]

theorem rle_refl (x : ℝ) : rle x x = true := by simp [rle]

theorem alookup_mem {α : Type} {k : String} {v : α} :
    ∀ {m : List (String × α)}, alookup k m = some v → (k, v) ∈ m := by
  intro m
  induction m with
  | nil => simp [alookup]
  | cons p t ih =>
    by_cases h : p.1 = k
    · simp only [alookup, h, if_pos, Option.some.injEq]
      rintro rfl
      simp [← h]
    · simp only [alookup, h, if_neg, List.mem_cons]
      exact fun hm => Or.inr (ih hm)

theorem alookup_none {α : Type} {k : String} :
    ∀ {m : List (String × α)}, alookup k m = none → k ∉ m.map Prod.fst := by
  intro m
  induction m with
  | nil => simp
  | cons p t ih =>
    intro h
    by_cases hp : p.1 = k
    · simp [alookup, hp] at h
    · intro hmem
      simp only [List.map_cons, List.mem_cons] at hmem
      rcases hmem with h1 | h2
      · exact hp h1.symm
      · exact ih (by simpa [alookup, hp] using h) h2

theorem dictInsert_of_fresh {α : Type} {k : String} (v : α) :
    ∀ {m : List (String × α)}, k ∉ m.map Prod.fst →
      dictInsert m k v = m ++ [(k, v)] := by
  intro m
  induction m with
  | nil => simp [dictInsert]
  | cons p t ih =>
    intro h
    simp only [List.map_cons, List.mem_cons] at h
    push_neg at h
    simp only [dictInsert]
    rw [if_neg fun he => h.1 he.symm]
    simp only [List.cons_append, List.cons.injEq, true_and]
    exact ih h.2

theorem dictOfPairs_aux {α : Type} :
    ∀ (ps m : List (String × α)),
      (ps.map Prod.fst).Nodup →
      (∀ k ∈ ps.map Prod.fst, k ∉ m.map Prod.fst) →
      ps.foldl (fun m p => dictInsert m p.1 p.2) m = m ++ ps := by
  intro ps
  induction ps with
  | nil => simp
  | cons p t ih =>
    intro m hnd hdisj
    simp only [List.map_cons, List.nodup_cons] at hnd
    have hp : p.1 ∉ m.map Prod.fst := hdisj p.1 (by simp)
    simp only [List.foldl_cons, dictInsert_of_fresh p.2 hp]
    rw [ih (m ++ [(p.1, p.2)]) hnd.2]
    · simp
    · intro k hk
      simp only [List.map_append, List.mem_append, List.map_cons,
        List.map_nil, List.mem_singleton]
      push_neg
      exact ⟨fun hm => hdisj k (by simp [hk]) hm, fun he => hnd.1 (he ▸ hk)⟩

theorem dictOfPairs_eq_self {α : Type} (ps : List (String × α))
    (h : (ps.map Prod.fst).Nodup) : dictOfPairs ps = ps := by
  simpa [dictOfPairs] using dictOfPairs_aux ps [] h (by simp)

theorem ofNat_isLower (n : Nat) (h1 : 97 ≤ n) (h2 : n ≤ 122) :
    (Char.ofNat n).isLower = true := by
  interval_cases n <;> decide

/-- ASCII lowering sends the `[a-z0-9]` (case-insensitive) class into
lowercase letters and digits. -/
theorem toLower_lowerAlnum (c : Char) (h : isIdxChar c = true) :
    ((c.toLower).isLower || (c.toLower).isDigit) = true := by
  simp only [isIdxChar, Char.isAlpha, Bool.or_eq_true] at h
  by_cases hu : c.isUpper = true
  · have hb : 65 ≤ c.toNat ∧ c.toNat ≤ 90 := by
      simp [Char.isUpper] at hu
      exact ⟨hu.1, hu.2⟩
    have hlow : c.toLower = Char.ofNat (c.toNat + 32) := by
      unfold Char.toLower
      rw [if_pos hb]
    rw [hlow, ofNat_isLower (c.toNat + 32) (by omega) (by omega)]
    simp
  · have hb : ¬ (65 ≤ c.toNat ∧ c.toNat ≤ 90) := by
      simp [Char.isUpper] at hu
      intro hcon
      have h2 : (90:Nat) < c.toNat := hu hcon.1
      omega
    have hlow : c.toLower = c := by
      unfold Char.toLower
      rw [if_neg hb]
    rw [hlow]
    rcases h with h | h
    · rcases h with h | h
      · exact absurd h hu
      · simp [h]
    · simp [h]

theorem charRunsAux_sound (p : Char → Bool) :
    ∀ (l cur : List Char), (∀ c ∈ cur, p c = true) →
      ∀ r ∈ charRunsAux p cur l, r ≠ [] ∧ ∀ c ∈ r, p c = true := by
  intro l
  induction l with
  | nil =>
    intro cur hcur r hr
    by_cases h : cur = []
    · simp [charRunsAux, h] at hr
    · simp only [charRunsAux] at hr
      rw [if_neg h] at hr
      have heq := List.mem_singleton.1 hr
      subst heq
      refine ⟨by simpa using h, ?_⟩
      intro c hc
      exact hcur c (List.mem_reverse.1 hc)
  | cons c cs ih =>
    intro cur hcur r hr
    simp only [charRunsAux] at hr
    by_cases hc : p c = true
    · rw [if_pos hc] at hr
      refine ih (c :: cur) ?_ r hr
      intro x hx
      rcases List.mem_cons.1 hx with h1 | h2
      · exact h1 ▸ hc
      · exact hcur x h2
    · rw [if_neg hc] at hr
      by_cases hcur0 : cur = []
      · rw [if_pos hcur0] at hr
        exact ih [] (by simp) r hr
      · rw [if_neg hcur0] at hr
        rcases List.mem_cons.1 hr with h1 | h2
        · subst h1
          refine ⟨by simpa using hcur0, ?_⟩
          intro x hx
          exact hcur x (List.mem_reverse.1 hx)
        · exact ih [] (by simp) r h2

theorem charRuns_sound (p : Char → Bool) (l : List Char) :
    ∀ r ∈ charRuns p l, r ≠ [] ∧ ∀ c ∈ r, p c = true :=
  charRunsAux_sound p l [] (by simp)

theorem charRuns_nil (p : Char → Bool) :
    ∀ l : List Char, (∀ c ∈ l, p c = false) → charRuns p l = [] := by
  intro l
  induction l with
  | nil =>
    intro _
    rfl
  | cons c cs ih =>
    intro h
    have hc : ¬ p c = true := by simp [h c (by simp)]
    have hcs := ih fun x hx => h x (by simp [hx])
    have hstep : charRuns p (c :: cs) = charRunsAux p [] cs := by
      simp only [charRuns, charRunsAux]
      rw [if_neg hc]
      simp
    rw [hstep]
    exact hcs

theorem sumCounts_bumpCount (m : List (String × Nat)) (k : String) :
    sumCounts (bumpCount m k) = sumCounts m + 1 := by
  induction m with
  | nil => simp [bumpCount, sumCounts]
  | cons p t ih =>
    by_cases h : p.1 = k
    · simp only [bumpCount, h, if_pos, sumCounts, List.map_cons, List.sum_cons]
      omega
    · simp only [bumpCount, h, if_neg, Bool.false_eq_true, if_false,
        sumCounts, List.map_cons, List.sum_cons] at ih ⊢
      omega

theorem mem_addTokens_left {v : List String} {t : String} (h : t ∈ v) :
    ∀ tk, t ∈ addTokens v tk := by
  intro tk
  induction tk generalizing v with
  | nil => simpa [addTokens]
  | cons x xs ih =>
    simp only [addTokens, List.foldl_cons]
    by_cases hx : x ∈ v
    · rw [if_pos hx]
      exact ih h
    · rw [if_neg hx]
      exact ih (by simp [h])

theorem mem_addTokens_right {t : String} :
    ∀ (tk v : List String), t ∈ tk → t ∈ addTokens v tk := by
  intro tk
  induction tk with
  | nil => simp
  | cons x xs ih =>
    intro v ht
    rcases List.mem_cons.1 ht with h1 | h2
    · subst h1
      simp only [addTokens, List.foldl_cons]
      by_cases hx : t ∈ v
      · rw [if_pos hx]
        exact mem_addTokens_left (by simp [hx]) xs
      · rw [if_neg hx]
        exact mem_addTokens_left (by simp) xs
    · simp only [addTokens, List.foldl_cons]
      by_cases hx : x ∈ v <;> [rw [if_pos hx]; rw [if_neg hx]] <;>
        exact ih _ h2

theorem mem_foldl_addTokens {t : String} :
    ∀ (L : List (List String)) (acc : List String), t ∈ acc →
      t ∈ L.foldl addTokens acc := by
  intro L
  induction L with
  | nil =>
    intro acc h
    simpa
  | cons x xs ih =>
    intro acc h
    simp only [List.foldl_cons]
    exact ih _ (mem_addTokens_left h x)

theorem mem_foldl_addTokens_of_mem {t : String} {tk : List String} :
    ∀ (L : List (List String)) (acc : List String), tk ∈ L → t ∈ tk →
      t ∈ L.foldl addTokens acc := by
  intro L
  induction L with
  | nil => simp
  | cons x xs ih =>
    intro acc htk ht
    rcases List.mem_cons.1 htk with h1 | h2
    · subst h1
      simp only [List.foldl_cons]
      exact mem_foldl_addTokens xs _ (mem_addTokens_right tk acc ht)
    · simp only [List.foldl_cons]
      exact ih _ h2 ht

theorem mem_vocabList {documents : List (String × String)} {tk : List String}
    {t : String} (htk : tk ∈ corpusTokens documents) (ht : t ∈ tk) :
    t ∈ vocabList documents :=
  mem_foldl_addTokens_of_mem (corpusTokens documents) [] htk ht

theorem resultFromId_proj (R : Retriever) (p : String × ℚ) :
    ((result_from_id R p.1 p.2).id, (result_from_id R p.1 p.2).score) = p := by
  unfold result_from_id
  cases alookup p.1 R.documentsMap <;> simp

theorem map_proj_resultFromId (R : Retriever) (l : List (String × ℚ)) :
    (l.map fun p => result_from_id R p.1 p.2).map (fun r => (r.id, r.score)) = l := by
  induction l with
  | nil => rfl
  | cons p t ih => simp [resultFromId_proj R p, ih]

theorem normDiv_ne_zero (x : ℚ) : normDiv x ≠ 0 := by
  unfold normDiv
  by_cases h : x = 0 <;> simp [h]

theorem le_foldl_max (l : List ℚ) : ∀ a : ℚ, a ≤ l.foldl max a := by
  induction l with
  | nil => simp
  | cons b t ih =>
    intro a
    exact le_trans (le_max_left a b) (ih (max a b))

theorem mem_le_foldl_max (l : List ℚ) :
    ∀ (a x : ℚ), x ∈ l → x ≤ l.foldl max a := by
  induction l with
  | nil => simp
  | cons b t ih =>
    intro a x hx
    rcases List.mem_cons.1 hx with h1 | h2
    · subst h1
      exact le_trans (le_max_right a x) (le_foldl_max t (max a x))
    · exact ih (max a b) x h2

theorem le_branchMax {vals : List ℚ} {x : ℚ} (hx : x ∈ vals) :
    x ≤ branchMax vals := by
  cases vals with
  | nil => simp at hx
  | cons v vs =>
    rcases List.mem_cons.1 hx with h1 | h2
    · subst h1
      exact le_foldl_max vs x
    · exact mem_le_foldl_max vs v x h2

theorem branchMax_nonneg {vals : List ℚ} (h : ∀ v ∈ vals, 0 ≤ v) :
    0 ≤ branchMax vals := by
  cases vals with
  | nil => norm_num [branchMax]
  | cons v vs =>
    exact le_trans (h v (by simp)) (le_foldl_max vs v)

theorem ofNat_not_upper (n : Nat) (h1 : 97 ≤ n) (h2 : n ≤ 122) :
    (Char.ofNat n).isUpper = false := by
  interval_cases n <;> decide

theorem toLower_not_upper (c : Char) : (c.toLower).isUpper = false := by
  by_cases hb : 65 ≤ c.toNat ∧ c.toNat ≤ 90
  · have hlow : c.toLower = Char.ofNat (c.toNat + 32) := by
      unfold Char.toLower
      rw [if_pos hb]
    rw [hlow]
    exact ofNat_not_upper _ (by omega) (by omega)
  · have hlow : c.toLower = c := by
      unfold Char.toLower
      rw [if_neg hb]
    rw [hlow]
    by_cases hu : c.isUpper = true
    · have hcon : 65 ≤ c.toNat ∧ c.toNat ≤ 90 := by
        simp [Char.isUpper] at hu
        exact ⟨hu.1, hu.2⟩
      exact absurd hcon hb
    · simpa using hu

theorem charRunsAux_subset (p : Char → Bool) :
    ∀ (l cur : List Char) (M : List Char), (∀ c ∈ cur, c ∈ M) →
      (∀ c ∈ l, c ∈ M) →
      ∀ r ∈ charRunsAux p cur l, ∀ c ∈ r, c ∈ M := by
  intro l
  induction l with
  | nil =>
    intro cur M hcur _ r hr c hc
    by_cases h : cur = []
    · simp [charRunsAux, h] at hr
    · simp only [charRunsAux] at hr
      rw [if_neg h] at hr
      have heq := List.mem_singleton.1 hr
      subst heq
      exact hcur c (List.mem_reverse.1 hc)
  | cons x xs ih =>
    intro cur M hcur hl r hr c hc
    simp only [charRunsAux] at hr
    by_cases hx : p x = true
    · rw [if_pos hx] at hr
      refine ih (x :: cur) M ?_ (fun d hd => hl d (by simp [hd])) r hr c hc
      intro d hd
      rcases List.mem_cons.1 hd with h1 | h2
      · exact h1 ▸ hl x (by simp)
      · exact hcur d h2
    · rw [if_neg hx] at hr
      by_cases hcur0 : cur = []
      · rw [if_pos hcur0] at hr
        exact ih [] M (by simp) (fun d hd => hl d (by simp [hd])) r hr c hc
      · rw [if_neg hcur0] at hr
        rcases List.mem_cons.1 hr with h1 | h2
        · subst h1
          exact hcur c (List.mem_reverse.1 hc)
        · exact ih [] M (by simp) (fun d hd => hl d (by simp [hd])) r h2 c hc

theorem charRuns_subset (p : Char → Bool) (l : List Char) :
    ∀ r ∈ charRuns p l, ∀ c ∈ r, c ∈ l :=
  charRunsAux_subset p l [] l (by simp) (fun _ h => h)

theorem dfCount_le (documents : List (String × String)) (t : String) :
    dfCount documents t ≤ documents.length := by
  unfold dfCount
  calc ((corpusTokens documents).filter fun tk => t ∈ tk).length
      ≤ (corpusTokens documents).length := List.length_filter_le _ _
    _ = documents.length := by simp [corpusTokens]

theorem one_le_idfVal {numDocs df : Nat} (h : df ≤ numDocs) :
    1 ≤ idfVal numDocs df := by
  unfold idfVal
  have hdf : (0:ℝ) < 1 + df := by positivity
  have hlog : 0 ≤ Real.log ((1 + numDocs) / (1 + df)) := by
    apply Real.log_nonneg
    rw [le_div_iff₀ hdf]
    have : (df:ℝ) ≤ numDocs := Nat.cast_le.2 h
    linarith
  linarith

theorem one_le_idfOf (documents : List (String × String)) (idx : Nat) :
    1 ≤ idfOf documents idx :=
  one_le_idfVal (dfCount_le documents _)

theorem tfidfVec_nonneg (documents : List (String × String))
    (tokens : List String) (idx : Nat) : 0 ≤ tfidfVec documents tokens idx := by
  unfold tfidfVec
  apply mul_nonneg
  · positivity
  · exact le_trans zero_le_one (one_le_idfOf documents idx)

theorem normSq_nonneg (documents : List (String × String))
    (tokens : List String) : 0 ≤ normSq documents tokens :=
  Finset.sum_nonneg fun _ _ => sq_nonneg _

theorem vecNorm_nonneg (documents : List (String × String))
    (tokens : List String) : 0 ≤ vecNorm documents tokens :=
  Real.sqrt_nonneg _

theorem dotProd_nonneg (documents : List (String × String))
    (qTokens dTokens : List String) : 0 ≤ dotProd documents qTokens dTokens :=
  Finset.sum_nonneg fun i _ =>
    mul_nonneg (tfidfVec_nonneg documents qTokens i)
      (tfidfVec_nonneg documents dTokens i)

theorem dotProd_self (documents : List (String × String))
    (tokens : List String) :
    dotProd documents tokens tokens = normSq documents tokens := by
  unfold dotProd normSq
  exact Finset.sum_congr rfl fun i _ => by ring

theorem dotProd_le_norms (documents : List (String × String))
    (qTokens dTokens : List String) :
    dotProd documents qTokens dTokens ≤
      vecNorm documents qTokens * vecNorm documents dTokens := by
  unfold dotProd vecNorm normSq
  exact Real.sum_mul_le_sqrt_mul_sqrt _ _ _

theorem normSq_pos {documents : List (String × String)} {tokens : List String}
    {t : String} (ht : t ∈ tokens) (hv : t ∈ vocabList documents) :
    0 < normSq documents tokens := by
  have hlt : (vocabList documents).indexOf t < (vocabList documents).length :=
    List.indexOf_lt_length.2 hv
  have hget : (vocabList documents).getD ((vocabList documents).indexOf t) "" = t := by
    rw [List.getD_eq_getElem _ _ hlt]
    exact List.getElem_indexOf hlt
  have hterm : 0 < tfidfVec documents tokens ((vocabList documents).indexOf t) := by
    unfold tfidfVec
    apply mul_pos
    · apply div_pos
      · rw [hget]
        exact_mod_cast List.count_pos_iff.2 ht
      · exact_mod_cast List.length_pos.2 (List.ne_nil_of_mem ht)
    · exact lt_of_lt_of_le zero_lt_one (one_le_idfOf documents _)
  calc (0:ℝ) < (tfidfVec documents tokens ((vocabList documents).indexOf t)) ^ 2 :=
        pow_pos hterm 2
    _ ≤ normSq documents tokens := by
        unfold normSq
        exact Finset.single_le_sum
          (f := fun i => (tfidfVec documents tokens i) ^ 2)
          (fun i _ => sq_nonneg _) (Finset.mem_range.2 hlt)

theorem map_eta_result (l : List RetrievalResult) :
    (l.map fun r =>
      ({ id := r.id, text := r.text, score := r.score,
         metadata := r.metadata } : RetrievalResult)) = l := by
  induction l with
  | nil => rfl
  | cons r t ih => simp [ih]

theorem load_documents_aux :
    ∀ (lines : List JsonLine) (m : List (String × DocEntry)),
      (∀ l ∈ lines, wellFormedLine l = true) →
      load_documents m lines =
        LoadOutcome.ok (lines.foldl
          (fun m l =>
            match l with
            | .obj (some i) t md => dictInsert m i ⟨t.getD "", md.getD []⟩
            | _ => m) m) := by
  intro lines
  induction lines with
  | nil =>
    intro m _
    rfl
  | cons l ls ih =>
    intro m h
    have hl := h l (by simp)
    have hrest : ∀ x ∈ ls, wellFormedLine x = true := fun x hx => h x (by simp [hx])
    cases l with
    | blank => simpa [load_documents] using ih m hrest
    | bad => simp [wellFormedLine] at hl
    | obj idf t md =>
      cases idf with
      | none => simp [wellFormedLine] at hl
      | some i => simpa [load_documents] using ih (dictInsert m i ⟨t.getD "", md.getD []⟩) hrest

/-! ## Claims -/

/-- C10: `semantic_search` returns an identical result list for
`include_scores = true` and `include_scores = false`; the flag has no
observable effect on the returned ids, texts, scores, or metadata. -/
theorem claim_C10_include_scores_no_effect
    (oracle : String → Nat → List (String × WhereVal) → QueryReply)
    (query : String) (limit : Nat)
    (filters : Option (List (String × FilterVal))) :
    semantic_search oracle query limit filters true =
      semantic_search oracle query limit filters false := by
  unfold semantic_search
  simp only [if_true, Bool.false_eq_true, if_false]
  exact (map_eta_result _).symm

/-- C8: with no filter, when every document in the loaded corpus has a
non-null value for the counted field, the facet counts sum to the corpus
size. -/
theorem claim_C8_facet_counts_sum (R : Retriever) (field : String)
    (h : ∀ p ∈ R.documentsMap, getNonNull p.2.metadata field ≠ none) :
    sumCounts (facet_counts R field none) = R.documentsMap.length := by
  have aux : ∀ (docs : List (String × DocEntry)) (acc : List (String × Nat)),
      (∀ p ∈ docs, getNonNull p.2.metadata field ≠ none) →
      sumCounts (docs.foldl
        (fun counts p =>
          if metadata_matches p.2.metadata none then
            match getNonNull p.2.metadata field with
            | none => counts
            | some v => bumpCount counts (pyStr v)
          else counts) acc) = sumCounts acc + docs.length := by
    intro docs
    induction docs with
    | nil =>
      intro acc _
      simp
    | cons d t ih =>
      intro acc hdocs
      have hd := hdocs d (by simp)
      obtain ⟨v, hv⟩ : ∃ v, getNonNull d.2.metadata field = some v := by
        cases hg : getNonNull d.2.metadata field with
        | none => exact absurd hg hd
        | some v => exact ⟨v, rfl⟩
      simp only [List.foldl_cons]
      rw [show metadata_matches d.2.metadata none = true from rfl]
      simp only [if_true, hv]
      rw [ih _ fun p hp => hdocs p (by simp [hp]), sumCounts_bumpCount]
      simp only [List.length_cons]
      omega
  unfold facet_counts
  rw [aux R.documentsMap [] h]
  simp [sumCounts]

/-- C8 witness: a two-document retriever in which every document defines the
`kind` field; the facet counts sum to `2`. -/
theorem claim_C8_facet_counts_sum_witness :
    (∀ p ∈ (twoDocR.documentsMap.map fun p =>
        (p.1, DocEntry.mk p.2.text [("kind", Value.vStr "x")])),
      getNonNull p.2.metadata "kind" ≠ none) ∧
    sumCounts (facet_counts
      { twoDocR with documentsMap := twoDocR.documentsMap.map fun p =>
          (p.1, DocEntry.mk p.2.text [("kind", Value.vStr "x")]) } "kind" none) =
      ({ twoDocR with documentsMap := twoDocR.documentsMap.map fun p =>
          (p.1, DocEntry.mk p.2.text [("kind", Value.vStr "x")]) } :
        Retriever).documentsMap.length :=
  ⟨by decide, claim_C8_facet_counts_sum _ "kind" (by decide)⟩

/-- C7: in the fusion step's per-branch normalization, the divisor (the
branch maximum, replaced by `1` when it is zero or when the branch is
empty) is never zero, and — provided the branch's scores are non-negative,
as both `1 / (1 + distance)` conversions and BM25 scores are — every
normalized branch score lies in `[0, 1]`. -/
theorem claim_C7_normalization_bounds (m : List (String × ℚ)) (docId : String)
    (h : ∀ p ∈ m, 0 ≤ p.2) :
    normDiv (branchMax (m.map Prod.snd)) ≠ 0 ∧
    0 ≤ normScore m docId ∧ normScore m docId ≤ 1 := by
  refine ⟨normDiv_ne_zero _, ?_⟩
  unfold normScore
  cases hl : alookup docId m with
  | none =>
    simp
  | some v =>
    have hv0 : 0 ≤ v := h (docId, v) (alookup_mem hl)
    have hvmem : v ∈ m.map Prod.snd :=
      List.mem_map.2 ⟨(docId, v), alookup_mem hl, rfl⟩
    have hvle : v ≤ branchMax (m.map Prod.snd) := le_branchMax hvmem
    have hbm0 : 0 ≤ branchMax (m.map Prod.snd) :=
      branchMax_nonneg fun x hx => by
        obtain ⟨p, hp, rfl⟩ := List.mem_map.1 hx
        exact h p hp
    by_cases hz : branchMax (m.map Prod.snd) = 0
    · have hv : v = 0 := le_antisymm (hz ▸ hvle) hv0
      simp [normDiv, hz, hv]
    · have hpos : 0 < branchMax (m.map Prod.snd) := lt_of_le_of_ne hbm0 (Ne.symm hz)
      rw [show normDiv (branchMax (m.map Prod.snd)) = branchMax (m.map Prod.snd)
        from if_neg hz]
      simp only [Option.getD_some]
      exact ⟨div_nonneg hv0 hbm0, (div_le_one hpos).2 hvle⟩

/-- C7 witness: the branch `[("a", 2), ("b", 0)]` at id `"a"`. -/
theorem claim_C7_normalization_bounds_witness :
    (∀ p ∈ [(("a":String), (2:ℚ)), ("b", 0)], 0 ≤ p.2) ∧
    (normDiv (branchMax ([(("a":String), (2:ℚ)), ("b", 0)].map Prod.snd)) ≠ 0 ∧
     0 ≤ normScore [(("a":String), (2:ℚ)), ("b", 0)] "a" ∧
     normScore [(("a":String), (2:ℚ)), ("b", 0)] "a" ≤ 1) :=
  ⟨by norm_num, claim_C7_normalization_bounds _ "a" (by norm_num)⟩

/-- C2 counterexample: a snapshot whose first line is malformed JSON
followed by a well-formed line.  `_load_documents` raises on the malformed
line (returning no map), so the loaded map is not the map of the
well-formed lines. -/
theorem claim_C2_counterexample :
    load_documents [] [JsonLine.bad, JsonLine.obj (some "a") none none] =
      LoadOutcome.raised [] ∧
    goodLinesMap [JsonLine.bad, JsonLine.obj (some "a") none none] =
      [("a", ⟨"", []⟩)] ∧
    load_documents [] [JsonLine.bad, JsonLine.obj (some "a") none none] ≠
      LoadOutcome.ok
        (goodLinesMap [JsonLine.bad, JsonLine.obj (some "a") none none]) := by
  refine ⟨rfl, rfl, ?_⟩
  decide

/-- C2 amended: only blank lines are skipped; a malformed line (invalid
JSON or missing `id`) raises and aborts the load, keeping the entries
inserted before it.  When every line is blank or well-formed, the loaded
map does equal the map built from the well-formed lines. -/
theorem claim_C2_amended_load (lines : List JsonLine)
    (h : ∀ l ∈ lines, wellFormedLine l = true) :
    load_documents [] lines = LoadOutcome.ok (goodLinesMap lines) :=
  load_documents_aux lines [] h

/-- C2 witness: a blank line and two well-formed lines load into the
two-entry map. -/
theorem claim_C2_amended_load_witness :
    (∀ l ∈ [JsonLine.blank, JsonLine.obj (some "a") (some "t") none,
        JsonLine.obj (some "b") none (some [("k", Value.vInt 3)])],
      wellFormedLine l = true) ∧
    load_documents [] [JsonLine.blank, JsonLine.obj (some "a") (some "t") none,
        JsonLine.obj (some "b") none (some [("k", Value.vInt 3)])] =
      LoadOutcome.ok (goodLinesMap
        [JsonLine.blank, JsonLine.obj (some "a") (some "t") none,
         JsonLine.obj (some "b") none (some [("k", Value.vInt 3)])]) :=
  ⟨by decide, claim_C2_amended_load _ (by decide)⟩

/-- C5: with the lexical capability disabled (`bm25 = None`, fixed at
construction), `hybrid_search` returns exactly the semantic branch's
candidates sorted by semantic score descending and truncated to `limit`:
its `(id, score)` projection equals the spec-side `semanticOnlyRanking`,
with no normalization or fusion arithmetic touching the scores.  (The
duplicate-free hypothesis on the returned ids reflects that a vector store
returns each id at most once; the source deduplicates through a dict.) -/
theorem claim_C5_lexical_disabled (R : Retriever) (query : String)
    (limit : Nat) (filters : Option (List (String × FilterVal))) (alpha : ℚ)
    (enum : List String) (hbm : R.bm25 = none)
    (hnd : ((semantic_search R.oracle query (limit * 2) filters true).map
      RetrievalResult.id).Nodup) :
    (hybrid_search R query limit filters alpha enum).map
        (fun r => (r.id, r.score)) =
      semanticOnlyRanking R.oracle query limit filters := by
  have hkeys : (((semantic_search R.oracle query (limit * 2) filters true).map
      fun r => (r.id, r.score)).map Prod.fst).Nodup := by
    rw [List.map_map]
    exact hnd
  simp only [hybrid_search, hbm]
  rw [dictOfPairs_eq_self _ hkeys, map_proj_resultFromId]
  rfl

/-- C5 witness: a two-document lexical-disabled retriever. -/
theorem claim_C5_lexical_disabled_witness :
    twoDocR.bm25 = none ∧
    ((semantic_search twoDocR.oracle "q" (3 * 2) none true).map
      RetrievalResult.id).Nodup ∧
    (hybrid_search twoDocR "q" 3 none (1/2) []).map
        (fun r => (r.id, r.score)) =
      semanticOnlyRanking twoDocR.oracle "q" 3 none :=
  ⟨rfl, by decide, claim_C5_lexical_disabled twoDocR "q" 3 none (1/2) [] rfl (by decide)⟩

/-- C1 counterexample: the punctuation-only query tokenizes to `[]`, yet
`hybrid_search` still consults the vector-store collaborator and returns
its candidate — a non-empty result whose content comes from the
collaborator, refuting both the empty-result and the no-collaborator-call
halves of the claim. -/
theorem claim_C1_counterexample :
    tokenize "!!! ... ,,," = [] ∧
    hybrid_search cexR "!!! ... ,,," 5 none (1/2) [] =
      [{ id := "d1", text := "t", score := 1, metadata := [] }] ∧
    hybrid_search cexR "!!! ... ,,," 5 none (1/2) [] ≠ [] := by
  have he : hybrid_search cexR "!!! ... ,,," 5 none (1/2) [] =
      [{ id := "d1", text := "t", score := 1, metadata := [] }] := by
    simp [hybrid_search, semantic_search, cexR, oneDocOracle, format_filters,
      dictOfPairs, dictInsert, distance_to_score, sortScoresDesc, insertDesc,
      result_from_id, alookup]
  refine ⟨by decide, he, ?_⟩
  rw [he]
  simp

/-- C1 amended: `hybrid_search` does not special-case queries whose
tokenization is empty — it always calls the semantic collaborator; the
result is empty when that call returns no candidates and lexical ranking
is disabled. -/
theorem claim_C1_amended_always_calls (R : Retriever) (query : String)
    (limit : Nat) (filters : Option (List (String × FilterVal))) (alpha : ℚ)
    (enum : List String) (hbm : R.bm25 = none)
    (hor : R.oracle query (limit * 2) (format_filters filters) = ⟨[], [], [], []⟩) :
    hybrid_search R query limit filters alpha enum = [] := by
  simp [hybrid_search, semantic_search, hor, hbm, dictOfPairs, sortScoresDesc]

/-- C1 amended witness: the empty-reply collaborator with lexical ranking
disabled. -/
theorem claim_C1_amended_always_calls_witness :
    cexREmpty.bm25 = none ∧
    cexREmpty.oracle "q" (5 * 2) (format_filters none) = ⟨[], [], [], []⟩ ∧
    hybrid_search cexREmpty "q" 5 none 1 [] = [] :=
  ⟨rfl, rfl, claim_C1_amended_always_calls cexREmpty "q" 5 none 1 [] rfl rfl⟩

/-- C3 counterexample: with lexical ranking enabled, `tieR` produces two
candidates with equal fused scores; two valid iteration orders of the same
candidate-id set yield different ordered result lists, so the output is
not independent of the unspecified hash-set iteration order (which varies
across interpreter runs). -/
theorem claim_C3_counterexample :
    isEnumOf ["d1", "d2"] (hybridCandidateIds tieR "alpha" 5 none) = true ∧
    isEnumOf ["d2", "d1"] (hybridCandidateIds tieR "alpha" 5 none) = true ∧
    hybrid_search tieR "alpha" 5 none (1/2) ["d1", "d2"] ≠
      hybrid_search tieR "alpha" 5 none (1/2) ["d2", "d1"] := by
  have h1 : (hybrid_search tieR "alpha" 5 none (1/2) ["d1", "d2"]).map
      RetrievalResult.id = ["d1", "d2"] := by
    norm_num [hybrid_search, semantic_search, tieR, format_filters,
      dictOfPairs, dictInsert, distance_to_score, bm25_rank, tokenize,
      charRuns, charRunsAux, isWordChar, metadata_matches, alookup,
      normScore, normDiv, branchMax, sortScoresDesc, insertDesc, qle,
      result_from_id]
    simp
  have h2 : (hybrid_search tieR "alpha" 5 none (1/2) ["d2", "d1"]).map
      RetrievalResult.id = ["d2", "d1"] := by
    norm_num [hybrid_search, semantic_search, tieR, format_filters,
      dictOfPairs, dictInsert, distance_to_score, bm25_rank, tokenize,
      charRuns, charRunsAux, isWordChar, metadata_matches, alookup,
      normScore, normDiv, branchMax, sortScoresDesc, insertDesc, qle,
      result_from_id]
    simp
  refine ⟨by decide, by decide, ?_⟩
  intro h
  rw [h] at h1
  exact absurd (h1.symm.trans h2) (by decide)

/-- C3 amended: `SimpleVectorIndex.search` is deterministic with ties among
equal scores resolved by original corpus order: the stable descending sort
leaves every equal-score class in the order it has in the corpus-order
scores list.  (`hybrid_search`'s lexical-enabled branch, by contrast,
orders ties by the unspecified set-iteration order — see the
counterexample.) -/
theorem claim_C3_amended_stable_ties (documents : List (String × String))
    (query : String) (c : ℝ) :
    (sortScoresDesc rle (SimpleVectorIndex.scoresList documents query)).filter
        (fun p => decide (p.2 = c)) =
      (SimpleVectorIndex.scoresList documents query).filter
        (fun p => decide (p.2 = c)) :=
  filter_sortScoresDesc rle rle_refl c _

/-- C4 counterexample: the retriever's tokenizer matches `\w+`, so the
underscore-only input yields the token `"_"`, which is not a string of
lowercase ASCII letters and digits. -/
theorem claim_C4_counterexample :
    tokenize "_" = ["_"] ∧ lowerAlnumTok "_" = false := by
  decide

/-- C4 amended: the TF-IDF index's tokenizer (`_tokenise`) produces only
non-empty lowercase-alphanumeric tokens, but the retriever's (`_tokenize`)
produces non-empty tokens of (non-uppercase) `\w` word characters, which
may include underscores; for both, input with no matching characters
yields the empty sequence. -/
theorem claim_C4_amended_tokens :
    (∀ (s : String), ∀ t ∈ tokenise s, lowerAlnumTok t = true) ∧
    (∀ (s : String), ∀ t ∈ tokenize s, wordTok t = true) ∧
    (∀ (s : String), (∀ c ∈ s.data, isIdxChar c = false) → tokenise s = []) ∧
    (∀ (s : String), (∀ c ∈ s.data, isWordChar (Char.toLower c) = false) →
      tokenize s = []) := by
  refine ⟨?_, ?_, ?_, ?_⟩
  · intro s t ht
    obtain ⟨r, hr, rfl⟩ := List.mem_map.1 ht
    have hs := charRuns_sound isIdxChar s.data r hr
    unfold lowerAlnumTok
    simp only [Bool.and_eq_true]
    refine ⟨?_, ?_⟩
    · have hne : (r.map Char.toLower) ≠ [] := fun hemp => hs.1 (List.map_eq_nil_iff.1 hemp)
      simpa using hne
    · apply List.all_eq_true.2
      intro c hc
      obtain ⟨c₀, hc₀, rfl⟩ := List.mem_map.1 hc
      exact toLower_lowerAlnum c₀ (hs.2 c₀ hc₀)
  · intro s t ht
    obtain ⟨r, hr, rfl⟩ := List.mem_map.1 ht
    have hs := charRuns_sound isWordChar (s.data.map Char.toLower) r hr
    have hsub := charRuns_subset isWordChar (s.data.map Char.toLower) r hr
    unfold wordTok
    simp only [Bool.and_eq_true]
    refine ⟨by simpa using hs.1, ?_⟩
    apply List.all_eq_true.2
    intro c hc
    simp only [Bool.and_eq_true]
    refine ⟨hs.2 c hc, ?_⟩
    obtain ⟨c₀, _, rfl⟩ := List.mem_map.1 (hsub c hc)
    simp [toLower_not_upper c₀]
  · intro s h
    unfold tokenise
    rw [charRuns_nil isIdxChar s.data h]
    rfl
  · intro s h
    unfold tokenize
    rw [charRuns_nil isWordChar (s.data.map Char.toLower) ?_]
    · rfl
    · intro c hc
      obtain ⟨c₀, hc₀, rfl⟩ := List.mem_map.1 hc
      exact h c₀ hc₀

/-- C4 witness: concrete tokens of each tokenizer, and concrete
no-word-character inputs. -/
theorem claim_C4_amended_tokens_witness :
    lowerAlnumTok "ab3" = true ∧ wordTok "a_b" = true ∧
    tokenise "!!!" = [] ∧ tokenize ",,," = [] :=
  ⟨claim_C4_amended_tokens.1 "Ab3 x" "ab3" (by decide),
   claim_C4_amended_tokens.2.1 "A_b!" "a_b" (by decide),
   claim_C4_amended_tokens.2.2.1 "!!!" (by decide),
   claim_C4_amended_tokens.2.2.2 ",,," (by decide)⟩

theorem vecNorm_mul_self (documents : List (String × String))
    (tokens : List String) :
    vecNorm documents tokens * vecNorm documents tokens = normSq documents tokens := by
  unfold vecNorm
  exact Real.mul_self_sqrt (normSq_nonneg documents tokens)

theorem scoresList_eq_map (documents : List (String × String)) (query : String)
    (h1 : tokenise query ≠ [])
    (h2 : vecNorm documents (tokenise query) ≠ 0) :
    SimpleVectorIndex.scoresList documents query = documents.map fun a =>
      if vecNorm documents (tokenise a.2) = 0 then (a.1, (0:ℝ))
      else (a.1, dotProd documents (tokenise query) (tokenise a.2) /
            (vecNorm documents (tokenise a.2) * vecNorm documents (tokenise query))) := by
  simp only [SimpleVectorIndex.scoresList]
  rw [if_neg h1, if_neg h2]

/-- C6: a query whose tokenization coincides with a (non-empty-tokenized)
document's tokenization is assigned cosine score exactly `1` for that
document — in the computed scores list and in `search` over the full
corpus. -/
theorem claim_C6_exact_match_scores_one (documents : List (String × String))
    (d dtext query : String) (hmem : (d, dtext) ∈ documents)
    (hne : tokenise dtext ≠ []) (hq : tokenise query = tokenise dtext) :
    (d, (1:ℝ)) ∈ SimpleVectorIndex.scoresList documents query ∧
    (d, (1:ℝ)) ∈ SimpleVectorIndex.search documents query documents.length := by
  obtain ⟨t0, ts, heq⟩ := List.exists_cons_of_ne_nil hne
  have ht0 : t0 ∈ tokenise dtext := by
    rw [heq]
    simp
  have htk : tokenise dtext ∈ corpusTokens documents :=
    List.mem_map.2 ⟨(d, dtext), hmem, rfl⟩
  have hvocab : t0 ∈ vocabList documents := mem_vocabList htk ht0
  have hpos : 0 < normSq documents (tokenise dtext) := normSq_pos ht0 hvocab
  have hnorm : vecNorm documents (tokenise dtext) ≠ 0 :=
    ne_of_gt (Real.sqrt_pos.2 hpos)
  have hne' : tokenise query ≠ [] := hq ▸ hne
  have hnorm' : vecNorm documents (tokenise query) ≠ 0 := hq ▸ hnorm
  have hform := scoresList_eq_map documents query hne' hnorm'
  have hmem1 : (d, (1:ℝ)) ∈ SimpleVectorIndex.scoresList documents query := by
    rw [hform]
    refine List.mem_map.2 ⟨(d, dtext), hmem, ?_⟩
    simp only [if_neg hnorm, hq]
    rw [dotProd_self, vecNorm_mul_self, div_self (ne_of_gt hpos)]
  refine ⟨hmem1, ?_⟩
  unfold SimpleVectorIndex.search
  have hlen : (sortScoresDesc rle
      (SimpleVectorIndex.scoresList documents query)).length = documents.length := by
    rw [length_sortScoresDesc, hform, List.length_map]
  rw [List.take_of_length_le (le_of_eq hlen)]
  exact (mem_sortScoresDesc rle _ _).2 hmem1

/-- C6 witness: the one-document corpus `{"d": "a"}` with query `"a"`. -/
theorem claim_C6_exact_match_scores_one_witness :
    (("d", "a") ∈ [(("d":String), ("a":String))] ∧ tokenise "a" ≠ [] ∧
      tokenise "a" = tokenise "a") ∧
    (("d", (1:ℝ)) ∈ SimpleVectorIndex.scoresList [("d", "a")] "a" ∧
     ("d", (1:ℝ)) ∈ SimpleVectorIndex.search [("d", "a")] "a"
        ([(("d":String), ("a":String))]).length) :=
  ⟨⟨by decide, by decide, rfl⟩,
   claim_C6_exact_match_scores_one [("d", "a")] "d" "a" "a"
     (by decide) (by decide) rfl⟩

/-- C9: every `(id, score)` pair returned by `SimpleVectorIndex.search`
has its score in `[0, 1]`: all tf-idf weights are non-negative (each idf is
at least `1`), so dot products are non-negative, Cauchy-Schwarz bounds the
cosine by `1`, and zero-norm documents are pinned to `0`. -/
theorem claim_C9_scores_unit_interval (documents : List (String × String))
    (query : String) (topK : Nat) (p : String × ℝ)
    (hp : p ∈ SimpleVectorIndex.search documents query topK) :
    0 ≤ p.2 ∧ p.2 ≤ 1 := by
  unfold SimpleVectorIndex.search at hp
  have hp3 : p ∈ SimpleVectorIndex.scoresList documents query :=
    (mem_sortScoresDesc rle p _).1 (List.mem_of_mem_take hp)
  by_cases h1 : tokenise query = []
  · simp [SimpleVectorIndex.scoresList, h1] at hp3
  · by_cases h2 : vecNorm documents (tokenise query) = 0
    · simp [SimpleVectorIndex.scoresList, h1, h2] at hp3
    · rw [scoresList_eq_map documents query h1 h2] at hp3
      obtain ⟨a, ha, hfa⟩ := List.mem_map.1 hp3
      by_cases h3 : vecNorm documents (tokenise a.2) = 0
      · rw [if_pos h3] at hfa
        rw [← hfa]
        norm_num
      · rw [if_neg h3] at hfa
        rw [← hfa]
        have hdpos : 0 < vecNorm documents (tokenise a.2) :=
          lt_of_le_of_ne (vecNorm_nonneg _ _) (Ne.symm h3)
        have hqpos : 0 < vecNorm documents (tokenise query) :=
          lt_of_le_of_ne (vecNorm_nonneg _ _) (Ne.symm h2)
        constructor
        · exact div_nonneg (dotProd_nonneg documents _ _)
            (mul_nonneg (vecNorm_nonneg _ _) (vecNorm_nonneg _ _))
        · rw [div_le_one (mul_pos hdpos hqpos)]
          calc dotProd documents (tokenise query) (tokenise a.2)
              ≤ vecNorm documents (tokenise query) * vecNorm documents (tokenise a.2) :=
                dotProd_le_norms documents _ _
            _ = vecNorm documents (tokenise a.2) * vecNorm documents (tokenise query) :=
                mul_comm _ _

theorem search_singleDoc :
    SimpleVectorIndex.search [("d", "a")] "a" 5 = [("d", (1:ℝ))] := by
  have htok : tokenise "a" = ["a"] := by decide
  have hvocab : vocabList [("d", "a")] = ["a"] := by decide
  have hdf : dfCount [("d", "a")] "a" = 1 := by decide
  have hidf : idfOf [("d", "a")] 0 = 1 := by
    unfold idfOf
    rw [hvocab]
    simp only [List.getD]
    norm_num [hdf, idfVal, Real.log_one]
  have htf : tfidfVec [("d", "a")] ["a"] 0 = 1 := by
    unfold tfidfVec
    rw [hvocab, hidf]
    simp only [List.getD]
    norm_num
  have hnsq : normSq [("d", "a")] ["a"] = 1 := by
    unfold normSq
    rw [hvocab]
    simp only [List.length_singleton, Finset.sum_range_one, htf]
    norm_num
  have hvn : vecNorm [("d", "a")] ["a"] = 1 := by
    unfold vecNorm
    rw [hnsq, Real.sqrt_one]
  have hdot : dotProd [("d", "a")] ["a"] ["a"] = 1 := by
    unfold dotProd
    rw [hvocab]
    simp only [List.length_singleton, Finset.sum_range_one, htf]
    norm_num
  have hscores : SimpleVectorIndex.scoresList [("d", "a")] "a" = [("d", (1:ℝ))] := by
    rw [scoresList_eq_map [("d", "a")] "a" (by rw [htok]; simp)
      (by rw [htok, hvn]; norm_num)]
    simp only [List.map_cons, List.map_nil, htok, hvn, hdot]
    norm_num
  unfold SimpleVectorIndex.search
  rw [hscores]
  simp [sortScoresDesc, insertDesc]

/-- C9 witness: the single returned pair of the one-document corpus search
lies in `[0, 1]`. -/
theorem claim_C9_scores_unit_interval_witness :
    ("d", (1:ℝ)) ∈ SimpleVectorIndex.search [("d", "a")] "a" 5 ∧
    (0 ≤ (("d", (1:ℝ)) : String × ℝ).2 ∧ (("d", (1:ℝ)) : String × ℝ).2 ≤ 1) :=
  ⟨by rw [search_singleDoc]; simp,
   claim_C9_scores_unit_interval [("d", "a")] "a" 5 ("d", (1:ℝ))
     (by rw [search_singleDoc]; simp)⟩

end RotomDex
